import Mathlib

/-
Verification of the LRU-cache repository (src/solution.cc) against its
natural-language specification.  The C++ core is a template class
`network::cache::LRUCache<K, V>` built from a `std::list` of (key, value)
pairs (front = most recently used) and an `std::unordered_map` from key to
the list iterator of that key's node.  The shallow embedding below tracks
the list itself and the key set of the map; because each map entry's
iterator always designates the unique list node carrying that key, the key
set is the whole information content of the map that the public operations
can observe.
-/

namespace LRUSpec

/-- State of `network::cache::LRUCache` (src/solution.cc, lines 21-86).
`cache_items_list` models `std::list<KeyValuePair> cache_items_list_`
(front = most recently used, back = eviction candidate); `cache_items_map`
models the key set of `std::unordered_map<K, KeyValuePairListIerator>
cache_items_map_`; `max_size` models `size_t max_size_`. -/
structure LRUCache (K V : Type) where
  cache_items_list : List (K × V)
  cache_items_map : List K
  max_size : Nat
deriving DecidableEq

variable {K V : Type} [DecidableEq K]

/-- Constructor `LRUCache(size_t max_size, CleanupCallback<K, V>* callback)`
(lines 64-66): both containers start empty; every `max_size` value, 0
included, is accepted.  The callback pointer is modelled at the call sites:
each mutating operation returns the list of pairs handed to the callback. -/
def LRUCache.new (K V : Type) (max_size : Nat) : LRUCache K V :=
  ⟨[], [], max_size⟩

/-- Member `bool Exists(const K& key) const` (lines 51-53): membership test
on the key index. -/
def LRUCache.Exists (c : LRUCache K V) (k : K) : Bool :=
  decide (k ∈ c.cache_items_map)

/-- Member `size_t Size() const` (lines 55-57): `cache_items_map_.size()`. -/
def LRUCache.Size (c : LRUCache K V) : Nat :=
  c.cache_items_map.length

/-- Effect of `cache_items_map_[key] = cache_items_list_.begin()` (line 35)
on the map's key set: `operator[]` inserts the key when absent and only
reassigns the mapped iterator when present. -/
def LRUCache.mapInsert (m : List K) (k : K) : List K :=
  if k ∈ m then m else k :: m

/-- Member `void Evict()` (lines 69-76), for a callback that does not throw:
`eldest` is the last list node (`end()` decremented once); the callback
receives `*eldest` (collected in the second component), then the key is
erased from the map and the node popped from the list.  The `none` branch is
never reached from `Put`, which calls `Evict` only when the map, hence under
the representation invariant the list, is nonempty; on an empty list the C++
would dereference a decremented `end()`. -/
def LRUCache.Evict (c : LRUCache K V) : LRUCache K V × List (K × V) :=
  match c.cache_items_list.getLast? with
  | some eldest =>
      ({ c with cache_items_map := c.cache_items_map.erase eldest.1,
                cache_items_list := c.cache_items_list.dropLast }, [eldest])
  | none => (c, [])

/-- Member `void Put(const K& key, const V& value)` (lines 26-39): if the
key is already present its node is erased from both structures, then the new
pair is pushed to the front of the list and recorded in the map, and when
`Size() > max_size_` the back entry is evicted.  Returns the new state and
the pairs handed to the eviction callback during the call. -/
def LRUCache.Put (c : LRUCache K V) (key : K) (value : V) :
    LRUCache K V × List (K × V) :=
  let c1 := if c.Size ≠ 0 ∧ c.Exists key = true then
      { c with
        cache_items_list := c.cache_items_list.eraseP (fun p => decide (p.1 = key)),
        cache_items_map := c.cache_items_map.erase key }
    else c
  let c2 := { c1 with
      cache_items_list := (key, value) :: c1.cache_items_list,
      cache_items_map := LRUCache.mapInsert c1.cache_items_map key }
  if c2.max_size < c2.Size then c2.Evict else (c2, [])

/-- Failure raised by `Get`: the C++ throws
`range_error("There is no such key in cache")`. -/
inductive GetError where
  | KeyNotFound
deriving DecidableEq

/-- Member `const V& Get(const K& key)` (lines 41-49): on a hit the node is
spliced to the front of the list and its value returned; otherwise the
`range_error` is thrown before any mutation, so the state is returned
untouched.  The inner `none` branch is unreachable whenever the map's key
set matches the list's (the stored iterator designates the key's node). -/
def LRUCache.Get (c : LRUCache K V) (key : K) :
    Except GetError V × LRUCache K V :=
  if c.Size ≠ 0 ∧ c.Exists key = true then
    match c.cache_items_list.find? (fun p => decide (p.1 = key)) with
    | some p =>
        (Except.ok p.2,
         { c with cache_items_list :=
             p :: c.cache_items_list.eraseP (fun q => decide (q.1 = key)) })
    | none => (Except.error GetError.KeyNotFound, c)
  else (Except.error GetError.KeyNotFound, c)

/-- Public calls of the cache.  `Exists` and `Size` are `const` member
functions (lines 51-57) and cannot change the state. -/
inductive Op (K V : Type) where
  | put : K → V → Op K V
  | get : K → Op K V
  | chkExists : K → Op K V
  | chkSize : Op K V

/-- State after one public call. -/
def LRUCache.applyOp (c : LRUCache K V) : Op K V → LRUCache K V
  | Op.put k v => (c.Put k v).1
  | Op.get k => (c.Get k).2
  | Op.chkExists _ => c
  | Op.chkSize => c

/-- State after a sequence of public calls. -/
def LRUCache.run (c : LRUCache K V) : List (Op K V) → LRUCache K V
  | [] => c
  | op :: ops => (c.applyOp op).run ops

/-- States reachable from a freshly constructed cache by public calls. -/
def Reachable (c : LRUCache K V) : Prop :=
  ∃ (cap : Nat) (ops : List (Op K V)), (LRUCache.new K V cap).run ops = c

/-- Member `Put` with the callback's possible failure made explicit: C++
exceptions raised inside `callback_->CleanUp(*eldest)` (line 73) are neither
caught nor suppressed, so they propagate out of `Evict` and out of `Put`
before `cache_items_map_.erase(eldest->first)` (line 74) and
`cache_items_list_.pop_back()` (line 75) are executed.  The result is the
outcome of the call together with the state of the object when control
leaves `Put` (normally or by the exception). -/
def LRUCache.PutE {E : Type} (c : LRUCache K V) (key : K) (value : V)
    (cb : K × V → Except E Unit) : Except E Unit × LRUCache K V :=
  let c1 := if c.Size ≠ 0 ∧ c.Exists key = true then
      { c with
        cache_items_list := c.cache_items_list.eraseP (fun p => decide (p.1 = key)),
        cache_items_map := c.cache_items_map.erase key }
    else c
  let c2 := { c1 with
      cache_items_list := (key, value) :: c1.cache_items_list,
      cache_items_map := LRUCache.mapInsert c1.cache_items_map key }
  if c2.max_size < c2.Size then
    match c2.cache_items_list.getLast? with
    | some eldest =>
        match cb eldest with
        | Except.error e => (Except.error e, c2)
        | Except.ok _ =>
            (Except.ok (),
             { c2 with cache_items_map := c2.cache_items_map.erase eldest.1,
                       cache_items_list := c2.cache_items_list.dropLast })
    | none => (Except.ok (), c2)
  else (Except.ok (), c2)

/-- C7: `Get` on a key that is not in the cache (never inserted, or already
evicted) fails with `KeyNotFound` and returns the state entirely unchanged:
contents, recency order and hence `Size()` are those of the state before the
call. -/
theorem c7_get_absent_fails_without_mutation (c : LRUCache K V) (key : K)
    (h : c.Exists key = false) :
    c.Get key = (Except.error GetError.KeyNotFound, c) := by
  unfold LRUCache.Get
  rw [if_neg]
  intro hcond
  rw [hcond.2] at h
  exact Bool.noConfusion h

theorem c7_witness :
    (LRUCache.new ℕ ℕ 2).Exists 5 = false ∧
    (LRUCache.new ℕ ℕ 2).Get 5 =
      (Except.error GetError.KeyNotFound, LRUCache.new ℕ ℕ 2) :=
  ⟨by decide, c7_get_absent_fails_without_mutation (LRUCache.new ℕ ℕ 2) 5 (by decide)⟩

/-- Putting into an empty cache of capacity 0 inserts the pair and at once
evicts it again, handing exactly that pair to the callback. -/
lemma put_cap0_empty (k : K) (v : V) :
    (LRUCache.new K V 0).Put k v = (LRUCache.new K V 0, [(k, v)]) := by
  simp [LRUCache.Put, LRUCache.new, LRUCache.Size, LRUCache.Exists,
    LRUCache.mapInsert, LRUCache.Evict, List.erase_cons_head]

/-- Every state reachable from a capacity-0 cache is the empty state. -/
lemma run_cap0 (ops : List (Op K V)) :
    (LRUCache.new K V 0).run ops = LRUCache.new K V 0 := by
  induction ops with
  | nil => rfl
  | cons op ops ih =>
      have happ : (LRUCache.new K V 0).applyOp op = LRUCache.new K V 0 := by
        cases op with
        | put k v => simp [LRUCache.applyOp, put_cap0_empty]
        | get k => simp [LRUCache.applyOp, LRUCache.Get, LRUCache.Size, LRUCache.new]
        | chkExists k => rfl
        | chkSize => rfl
      rw [LRUCache.run, happ, ih]

/-- C10: construction with capacity 0 is accepted, and on such a cache every
`Put(key, value)` first inserts the entry and immediately evicts it again,
handing exactly the just-inserted pair to the eviction callback, so after
every `Put` the cache is empty and `Size()` returns 0. -/
theorem c10_capacity_zero (c : LRUCache K V)
    (h : ∃ ops : List (Op K V), (LRUCache.new K V 0).run ops = c) (k : K) (v : V) :
    c.Size = 0 ∧ c.Put k v = (LRUCache.new K V 0, [(k, v)]) := by
  obtain ⟨ops, hops⟩ := h
  rw [run_cap0] at hops
  subst hops
  exact ⟨rfl, put_cap0_empty k v⟩

theorem c10_witness :
    (∃ ops : List (Op ℕ ℕ), (LRUCache.new ℕ ℕ 0).run ops = LRUCache.new ℕ ℕ 0) ∧
    (LRUCache.new ℕ ℕ 0).Size = 0 ∧
    (LRUCache.new ℕ ℕ 0).Put 3 7 = (LRUCache.new ℕ ℕ 0, [(3, 7)]) :=
  ⟨⟨[], rfl⟩, c10_capacity_zero (LRUCache.new ℕ ℕ 0) ⟨[], rfl⟩ 3 7⟩

/-- C1 counterexample: a capacity-1 cache holding (0, 0); `Put(1, 1)` with a
throwing eviction callback fails, yet afterwards the evicted key 0 is still
reachable: `Exists(0)` is true and `Size()` counts it (the size is 2).  The
callback at line 73 runs before the erasures at lines 74-75, so the
propagating exception skips the removal and the claim's conclusion — that
the evicted key is not reachable via Exists/Get/Size after the failing Put —
is false. -/
theorem c1_counterexample :
    (((LRUCache.new ℕ ℕ 1).Put 0 0).1.PutE 1 1 (fun _ => Except.error ())).1
        = Except.error () ∧
    (((LRUCache.new ℕ ℕ 1).Put 0 0).1.PutE 1 1
        (fun _ => Except.error ())).2.Exists 0 = true ∧
    (((LRUCache.new ℕ ℕ 1).Put 0 0).1.PutE 1 1
        (fun _ => Except.error ())).2.Size = 2 :=
  ⟨rfl, rfl, rfl⟩

/-- C1 amended: when a `Put` into a cache at (or beyond) capacity triggers an
eviction whose callback raises, the error propagates out of `Put` and the
removal is skipped entirely: both structures are exactly as they were after
the insertion of the new pair, so the would-be-evicted entry stays in the
Key Index and the Recency Sequence — the two structures remain mutually
consistent, but every previously held key, the eviction candidate included,
is still reachable via Exists, Get and Size. -/
theorem c1_amended_callback_failure_skips_removal {E : Type}
    (c : LRUCache K V) (key : K) (v : V) (e : E) (cb : K × V → Except E Unit)
    (hmiss : c.Exists key = false) (hfull : c.max_size ≤ c.Size)
    (hcb : ∀ p, cb p = Except.error e) :
    (c.PutE key v cb).1 = Except.error e ∧
    (c.PutE key v cb).2 =
      { c with cache_items_list := (key, v) :: c.cache_items_list,
               cache_items_map := key :: c.cache_items_map } ∧
    (c.PutE key v cb).2.Exists key = true ∧
    ∀ q ∈ c.cache_items_map, (c.PutE key v cb).2.Exists q = true := by
  have hkey : key ∉ c.cache_items_map := by
    have h := hmiss
    unfold LRUCache.Exists at h
    exact of_decide_eq_false h
  have hnot : ¬ (c.Size ≠ 0 ∧ c.Exists key = true) := by
    intro h
    rw [hmiss] at h
    exact Bool.noConfusion h.2
  have hins : LRUCache.mapInsert c.cache_items_map key = key :: c.cache_items_map := by
    unfold LRUCache.mapInsert
    rw [if_neg hkey]
  have hres : c.PutE key v cb =
      (Except.error e,
       { c with cache_items_list := (key, v) :: c.cache_items_list,
                cache_items_map := key :: c.cache_items_map }) := by
    have hlt : c.max_size <
        ({ c with cache_items_list := (key, v) :: c.cache_items_list,
                  cache_items_map := key :: c.cache_items_map } : LRUCache K V).Size := by
      unfold LRUCache.Size at hfull ⊢
      simp only [List.length_cons]
      omega
    have hl : ((key, v) :: c.cache_items_list).getLast? =
        some (((key, v) :: c.cache_items_list).getLast (List.cons_ne_nil _ _)) :=
      List.getLast?_eq_getLast _ (List.cons_ne_nil _ _)
    unfold LRUCache.PutE
    simp only [if_neg hnot, hins, if_pos hlt, hl, hcb]
  refine ⟨by rw [hres], by rw [hres], ?_, ?_⟩
  · rw [hres]
    unfold LRUCache.Exists
    simp
  · intro q hq
    rw [hres]
    unfold LRUCache.Exists
    simp [hq]

theorem c1_amended_witness :
    ((LRUCache.new ℕ ℕ 1).Put 0 0).1.Exists 1 = false ∧
    (((LRUCache.new ℕ ℕ 1).Put 0 0).1.max_size ≤
      ((LRUCache.new ℕ ℕ 1).Put 0 0).1.Size) ∧
    ((((LRUCache.new ℕ ℕ 1).Put 0 0).1.PutE 1 1 (fun _ => Except.error 42)).1
        = Except.error 42 ∧
      (((LRUCache.new ℕ ℕ 1).Put 0 0).1.PutE 1 1 (fun _ => Except.error 42)).2 =
        { ((LRUCache.new ℕ ℕ 1).Put 0 0).1 with
            cache_items_list :=
              (1, 1) :: ((LRUCache.new ℕ ℕ 1).Put 0 0).1.cache_items_list,
            cache_items_map :=
              1 :: ((LRUCache.new ℕ ℕ 1).Put 0 0).1.cache_items_map } ∧
      (((LRUCache.new ℕ ℕ 1).Put 0 0).1.PutE 1 1
          (fun _ => Except.error 42)).2.Exists 1 = true ∧
      ∀ q ∈ ((LRUCache.new ℕ ℕ 1).Put 0 0).1.cache_items_map,
        (((LRUCache.new ℕ ℕ 1).Put 0 0).1.PutE 1 1
            (fun _ => Except.error 42)).2.Exists q = true) :=
  ⟨by decide, by decide,
    c1_amended_callback_failure_skips_removal ((LRUCache.new ℕ ℕ 1).Put 0 0).1
      1 1 42 (fun _ => Except.error 42) (by decide) (by decide)
      (fun _ => rfl)⟩

/-- Representation invariant of the two collaborating structures: the map's
key set has no duplicates, it is a permutation of the keys of the list, and
the size never exceeds the capacity. -/
def Inv (c : LRUCache K V) : Prop :=
  c.cache_items_map.Nodup ∧
  (c.cache_items_list.map Prod.fst).Perm c.cache_items_map ∧
  c.cache_items_map.length ≤ c.max_size

lemma map_fst_eraseP (l : List (K × V)) (k : K) :
    (l.eraseP (fun p => decide (p.1 = k))).map Prod.fst =
      (l.map Prod.fst).erase k := by
  induction l with
  | nil => rfl
  | cons p t ih =>
      by_cases h : p.1 = k
      · rw [List.eraseP_cons_of_pos (by simp [h]), List.map_cons, h,
          List.erase_cons_head]
      · rw [List.eraseP_cons_of_neg (by simp [h]), List.map_cons, List.map_cons,
          List.erase_cons_tail (by simp [h]), ih]

lemma exists_iff_mem (c : LRUCache K V) (k : K) :
    c.Exists k = true ↔ k ∈ c.cache_items_map := by
  unfold LRUCache.Exists
  exact decide_eq_true_iff

lemma exists_eq_false_iff (c : LRUCache K V) (k : K) :
    c.Exists k = false ↔ k ∉ c.cache_items_map := by
  unfold LRUCache.Exists
  simp

/-- A `Put` on a key that is present erases the old node from both
structures, pushes the fresh pair to the front and reindexes it; no eviction
happens because the size after the reinsertion equals the size before the
call, which the invariant bounds by the capacity. -/
lemma put_hit (c : LRUCache K V) (h : Inv c) (key : K) (v : V)
    (hk : c.Exists key = true) :
    c.Put key v =
      ({ c with
          cache_items_list :=
            (key, v) :: c.cache_items_list.eraseP (fun p => decide (p.1 = key)),
          cache_items_map := key :: c.cache_items_map.erase key }, []) := by
  obtain ⟨hnd, hperm, hle⟩ := h
  have hmem : key ∈ c.cache_items_map := (exists_iff_mem c key).mp hk
  have hsz : c.Size ≠ 0 := by
    unfold LRUCache.Size
    intro h0
    rw [List.length_eq_zero] at h0
    rw [h0] at hmem
    exact List.not_mem_nil key hmem
  have hnotmem : key ∉ c.cache_items_map.erase key := fun hin =>
    (hnd.mem_erase_iff.mp hin).1 rfl
  have hins : LRUCache.mapInsert (c.cache_items_map.erase key) key =
      key :: c.cache_items_map.erase key := by
    unfold LRUCache.mapInsert
    rw [if_neg hnotmem]
  have hlen : (key :: c.cache_items_map.erase key).length =
      c.cache_items_map.length := by
    rw [List.length_cons, List.length_erase_of_mem hmem]
    have : c.cache_items_map.length ≠ 0 := by
      unfold LRUCache.Size at hsz
      exact hsz
    omega
  unfold LRUCache.Put
  simp only [if_pos (And.intro hsz hk), hins]
  rw [if_neg]
  unfold LRUCache.Size
  simp only [hlen]
  omega

/-- A `Put` on an absent key in a cache strictly below capacity only pushes
the new pair to the front of both structures. -/
lemma put_miss_small (c : LRUCache K V) (key : K) (v : V)
    (hk : c.Exists key = false) (hsz : c.Size < c.max_size) :
    c.Put key v =
      ({ c with cache_items_list := (key, v) :: c.cache_items_list,
                cache_items_map := key :: c.cache_items_map }, []) := by
  have hnotmem : key ∉ c.cache_items_map := fun hin => by
    rw [(exists_iff_mem c key).mpr hin] at hk
    exact Bool.noConfusion hk
  have hnot : ¬ (c.Size ≠ 0 ∧ c.Exists key = true) := by
    intro h
    rw [hk] at h
    exact Bool.noConfusion h.2
  have hins : LRUCache.mapInsert c.cache_items_map key =
      key :: c.cache_items_map := by
    unfold LRUCache.mapInsert
    rw [if_neg hnotmem]
  unfold LRUCache.Put
  simp only [if_neg hnot, hins]
  rw [if_neg]
  unfold LRUCache.Size at hsz ⊢
  simp only [List.length_cons]
  omega

/-- A `Put` on an absent key in a cache at capacity pushes the new pair to
the front and then evicts the back node of the list. -/
lemma put_miss_full (c : LRUCache K V) (key : K) (v : V)
    (hk : c.Exists key = false) (hsz : c.max_size ≤ c.Size) :
    c.Put key v =
      LRUCache.Evict { c with
        cache_items_list := (key, v) :: c.cache_items_list,
        cache_items_map := key :: c.cache_items_map } := by
  have hnotmem : key ∉ c.cache_items_map := fun hin => by
    rw [(exists_iff_mem c key).mpr hin] at hk
    exact Bool.noConfusion hk
  have hnot : ¬ (c.Size ≠ 0 ∧ c.Exists key = true) := by
    intro h
    rw [hk] at h
    exact Bool.noConfusion h.2
  have hins : LRUCache.mapInsert c.cache_items_map key =
      key :: c.cache_items_map := by
    unfold LRUCache.mapInsert
    rw [if_neg hnotmem]
  unfold LRUCache.Put
  simp only [if_neg hnot, hins]
  rw [if_pos]
  unfold LRUCache.Size at hsz ⊢
  simp only [List.length_cons]
  omega

/-- Eviction on a nonempty list removes the back node from the list and its
key from the map, preserving the mutual-consistency half of the invariant
and shrinking the map by one key. -/
lemma evict_spec (c : LRUCache K V) (hnd : c.cache_items_map.Nodup)
    (hperm : (c.cache_items_list.map Prod.fst).Perm c.cache_items_map)
    (hne : c.cache_items_list ≠ []) :
    c.Evict =
      ({ c with
          cache_items_map := c.cache_items_map.erase (c.cache_items_list.getLast hne).1,
          cache_items_list := c.cache_items_list.dropLast },
       [c.cache_items_list.getLast hne]) ∧
    (c.Evict).1.cache_items_map.Nodup ∧
    ((c.Evict).1.cache_items_list.map Prod.fst).Perm (c.Evict).1.cache_items_map ∧
    (c.Evict).1.cache_items_map.length = c.cache_items_map.length - 1 := by
  have hl : c.cache_items_list.getLast? = some (c.cache_items_list.getLast hne) :=
    List.getLast?_eq_getLast _ hne
  have heq : c.Evict =
      ({ c with
          cache_items_map := c.cache_items_map.erase (c.cache_items_list.getLast hne).1,
          cache_items_list := c.cache_items_list.dropLast },
       [c.cache_items_list.getLast hne]) := by
    unfold LRUCache.Evict
    rw [hl]
  set e := c.cache_items_list.getLast hne with he
  have hsplit : c.cache_items_list.dropLast ++ [e] = c.cache_items_list :=
    List.dropLast_append_getLast hne
  have hkeys : c.cache_items_list.map Prod.fst =
      (c.cache_items_list.dropLast.map Prod.fst) ++ [e.1] := by
    conv_lhs => rw [← hsplit]
    rw [List.map_append, List.map_cons, List.map_nil]
  have hknodup : (c.cache_items_list.map Prod.fst).Nodup :=
    hperm.nodup_iff.mpr hnd
  have hnotmem : e.1 ∉ c.cache_items_list.dropLast.map Prod.fst := by
    rw [hkeys] at hknodup
    intro hin
    rcases List.nodup_append.mp hknodup with ⟨_, _, hdisj⟩
    exact hdisj hin (List.mem_singleton_self e.1)
  have hperm2 : (c.cache_items_list.dropLast.map Prod.fst).Perm
      (c.cache_items_map.erase e.1) := by
    have h1 : (c.cache_items_list.map Prod.fst).erase e.1 =
        c.cache_items_list.dropLast.map Prod.fst := by
      rw [hkeys, List.erase_append_right _ hnotmem, List.erase_cons_head,
        List.append_nil]
    have h2 := hperm.erase e.1
    rw [h1] at h2
    exact h2
  have hmem : e.1 ∈ c.cache_items_map := by
    apply hperm.mem_iff.mp
    rw [hkeys]
    exact List.mem_append_right _ (List.mem_singleton_self e.1)
  refine ⟨heq, ?_, ?_, ?_⟩
  · rw [heq]
    exact hnd.erase e.1
  · rw [heq]
    exact hperm2
  · rw [heq]
    exact List.length_erase_of_mem hmem

/-- `Put` preserves the representation invariant. -/
lemma inv_put (c : LRUCache K V) (h : Inv c) (key : K) (v : V) :
    Inv (c.Put key v).1 := by
  obtain ⟨hnd, hperm, hle⟩ := h
  by_cases hk : c.Exists key = true
  · rw [put_hit c ⟨hnd, hperm, hle⟩ key v hk]
    have hmem : key ∈ c.cache_items_map := (exists_iff_mem c key).mp hk
    have hmemlist : key ∈ c.cache_items_list.map Prod.fst := hperm.mem_iff.mpr hmem
    refine ⟨?_, ?_, ?_⟩
    · exact List.Nodup.cons (fun hin => (hnd.mem_erase_iff.mp hin).1 rfl)
        (hnd.erase key)
    · simp only [List.map_cons, map_fst_eraseP]
      exact (hperm.erase key).cons key
    · simp only [List.length_cons, List.length_erase_of_mem hmem]
      have : c.cache_items_map.length ≠ 0 :=
        fun h0 => by
          rw [List.length_eq_zero] at h0
          rw [h0] at hmem
          exact List.not_mem_nil key hmem
      omega
  · have hk' : c.Exists key = false := by
      cases hx : c.Exists key with
      | false => rfl
      | true => exact absurd hx hk
    have hnotmem : key ∉ c.cache_items_map := fun hin => by
      rw [(exists_iff_mem c key).mpr hin] at hk'
      exact Bool.noConfusion hk'
    by_cases hsz : c.Size < c.max_size
    · rw [put_miss_small c key v hk' hsz]
      refine ⟨List.Nodup.cons hnotmem hnd, ?_, ?_⟩
      · simp only [List.map_cons]
        exact hperm.cons key
      · unfold LRUCache.Size at hsz
        simp only [List.length_cons]
        omega
    · have hfull : c.max_size ≤ c.Size := Nat.le_of_not_lt hsz
      rw [put_miss_full c key v hk' hfull]
      have hnd2 : (key :: c.cache_items_map).Nodup := List.Nodup.cons hnotmem hnd
      have hperm2 : (((key, v) :: c.cache_items_list).map Prod.fst).Perm
          (key :: c.cache_items_map) := by
        simp only [List.map_cons]
        exact hperm.cons key
      obtain ⟨heq2, hnd3, hperm3, hlen3⟩ :=
        evict_spec { c with
            cache_items_list := (key, v) :: c.cache_items_list,
            cache_items_map := key :: c.cache_items_map }
          hnd2 hperm2 (List.cons_ne_nil _ _)
      have hms : (LRUCache.Evict { c with
          cache_items_list := (key, v) :: c.cache_items_list,
          cache_items_map := key :: c.cache_items_map }).1.max_size =
          c.max_size := by
        rw [heq2]
      refine ⟨hnd3, hperm3, ?_⟩
      rw [hlen3, hms]
      simp only [List.length_cons]
      unfold LRUCache.Size at hfull
      omega

/-- `Get` preserves the representation invariant. -/
lemma inv_get (c : LRUCache K V) (h : Inv c) (key : K) :
    Inv (c.Get key).2 := by
  obtain ⟨hnd, hperm, hle⟩ := h
  unfold LRUCache.Get
  by_cases hcond : c.Size ≠ 0 ∧ c.Exists key = true
  · rw [if_pos hcond]
    cases hf : c.cache_items_list.find? (fun p => decide (p.1 = key)) with
    | none => exact ⟨hnd, hperm, hle⟩
    | some p =>
        have hpkey : p.1 = key := by
          have := List.find?_some hf
          exact of_decide_eq_true this
        have hpmem : p ∈ c.cache_items_list := List.mem_of_find?_eq_some hf
        have hkmem : key ∈ c.cache_items_list.map Prod.fst := by
          rw [← hpkey]
          exact List.mem_map_of_mem Prod.fst hpmem
        refine ⟨hnd, ?_, hle⟩
        simp only [List.map_cons, map_fst_eraseP, hpkey]
        exact (List.perm_cons_erase hkmem).symm.trans hperm
  · rw [if_neg hcond]
    exact ⟨hnd, hperm, hle⟩

omit [DecidableEq K] in
lemma inv_new (cap : Nat) : Inv (LRUCache.new K V cap) :=
  ⟨List.nodup_nil, List.Perm.refl _, Nat.zero_le _⟩

lemma inv_applyOp (c : LRUCache K V) (h : Inv c) (op : Op K V) :
    Inv (c.applyOp op) := by
  cases op with
  | put k v => exact inv_put c h k v
  | get k => exact inv_get c h k
  | chkExists k => exact h
  | chkSize => exact h

lemma inv_run (c : LRUCache K V) (h : Inv c) (ops : List (Op K V)) :
    Inv (c.run ops) := by
  induction ops generalizing c with
  | nil => exact h
  | cons op ops ih => exact ih _ (inv_applyOp c h op)

lemma reachable_inv (c : LRUCache K V) (h : Reachable c) : Inv c := by
  obtain ⟨cap, ops, hops⟩ := h
  rw [← hops]
  exact inv_run _ (inv_new cap) ops

/-- C3: in every reachable state, `Size()` equals the cardinality of the Key
Index and the cardinality of the Recency Sequence, and both structures hold
exactly the same set of keys. -/
theorem c3_index_and_sequence_agree (c : LRUCache K V) (h : Reachable c) :
    c.Size = c.cache_items_map.length ∧
    c.Size = c.cache_items_list.length ∧
    ∀ k : K, k ∈ c.cache_items_map ↔ k ∈ c.cache_items_list.map Prod.fst := by
  obtain ⟨hnd, hperm, hle⟩ := reachable_inv c h
  refine ⟨rfl, ?_, fun k => (hperm.mem_iff).symm⟩
  unfold LRUCache.Size
  rw [← hperm.length_eq, List.length_map]

theorem c3_witness :
    Reachable ((LRUCache.new ℕ ℕ 2).run [Op.put 1 5, Op.put 2 6]) ∧
    ((LRUCache.new ℕ ℕ 2).run [Op.put 1 5, Op.put 2 6]).Size =
      ((LRUCache.new ℕ ℕ 2).run [Op.put 1 5, Op.put 2 6]).cache_items_map.length ∧
    ((LRUCache.new ℕ ℕ 2).run [Op.put 1 5, Op.put 2 6]).Size =
      ((LRUCache.new ℕ ℕ 2).run [Op.put 1 5, Op.put 2 6]).cache_items_list.length ∧
    (1 ∈ ((LRUCache.new ℕ ℕ 2).run [Op.put 1 5, Op.put 2 6]).cache_items_map ↔
      1 ∈ ((LRUCache.new ℕ ℕ 2).run
        [Op.put 1 5, Op.put 2 6]).cache_items_list.map Prod.fst) :=
  ⟨⟨2, [Op.put 1 5, Op.put 2 6], rfl⟩,
    (c3_index_and_sequence_agree _ ⟨2, [Op.put 1 5, Op.put 2 6], rfl⟩).1,
    (c3_index_and_sequence_agree _ ⟨2, [Op.put 1 5, Op.put 2 6], rfl⟩).2.1,
    (c3_index_and_sequence_agree _ ⟨2, [Op.put 1 5, Op.put 2 6], rfl⟩).2.2 1⟩

/-- C4: in every reachable state — in particular after each completed public
call of any sequence of `Put`s on a cache of fixed capacity — `Size()` is at
most the capacity. -/
theorem c4_size_le_capacity (c : LRUCache K V) (h : Reachable c) :
    c.Size ≤ c.max_size :=
  (reachable_inv c h).2.2

theorem c4_witness :
    Reachable ((LRUCache.new ℕ ℕ 1).run [Op.put 1 5, Op.put 2 6]) ∧
    ((LRUCache.new ℕ ℕ 1).run [Op.put 1 5, Op.put 2 6]).Size ≤
      ((LRUCache.new ℕ ℕ 1).run [Op.put 1 5, Op.put 2 6]).max_size :=
  ⟨⟨1, [Op.put 1 5, Op.put 2 6], rfl⟩,
    c4_size_le_capacity _ ⟨1, [Op.put 1 5, Op.put 2 6], rfl⟩⟩

/-- C6: a `Put` on a key that is already present replaces the stored value,
moves the entry to the front of the Recency Sequence, leaves `Size()`
unchanged and invokes the eviction callback zero times: the returned
callback-invocation list is empty, the new front of the list is the fresh
pair, and a subsequent `Get` on the key yields the new value. -/
theorem c6_overwrite_no_eviction (c : LRUCache K V) (h : Reachable c)
    (key : K) (v : V) (hk : c.Exists key = true) :
    (c.Put key v).2 = [] ∧
    (c.Put key v).1.Size = c.Size ∧
    (c.Put key v).1.cache_items_list.head? = some (key, v) ∧
    ((c.Put key v).1.Get key).1 = Except.ok v := by
  have hinv := reachable_inv c h
  obtain ⟨hnd, hperm, hle⟩ := hinv
  have hmem : key ∈ c.cache_items_map := (exists_iff_mem c key).mp hk
  have hput := put_hit c ⟨hnd, hperm, hle⟩ key v hk
  have hlen0 : c.cache_items_map.length ≠ 0 := fun h0 => by
    rw [List.length_eq_zero] at h0
    rw [h0] at hmem
    exact List.not_mem_nil key hmem
  refine ⟨by rw [hput], ?_, by rw [hput]; rfl, ?_⟩
  · rw [hput]
    unfold LRUCache.Size
    simp only [List.length_cons, List.length_erase_of_mem hmem]
    omega
  · rw [hput]
    unfold LRUCache.Get
    rw [if_pos]
    · rw [List.find?_cons_of_pos _ (by simp)]
    · constructor
      · unfold LRUCache.Size
        simp
      · unfold LRUCache.Exists
        simp

theorem c6_witness :
    Reachable ((LRUCache.new ℕ ℕ 2).run [Op.put 1 5]) ∧
    ((LRUCache.new ℕ ℕ 2).run [Op.put 1 5]).Exists 1 = true ∧
    ((((LRUCache.new ℕ ℕ 2).run [Op.put 1 5]).Put 1 9).2 = [] ∧
      (((LRUCache.new ℕ ℕ 2).run [Op.put 1 5]).Put 1 9).1.Size =
        ((LRUCache.new ℕ ℕ 2).run [Op.put 1 5]).Size ∧
      (((LRUCache.new ℕ ℕ 2).run
          [Op.put 1 5]).Put 1 9).1.cache_items_list.head? = some (1, 9) ∧
      ((((LRUCache.new ℕ ℕ 2).run [Op.put 1 5]).Put 1 9).1.Get 1).1 =
        Except.ok 9) :=
  ⟨⟨2, [Op.put 1 5], rfl⟩, by decide,
    c6_overwrite_no_eviction _ ⟨2, [Op.put 1 5], rfl⟩ 1 9 (by decide)⟩

/-- Sequence of `Put` calls; the second component collects the pairs handed
to the eviction callback across the whole sequence, in order. -/
def putAll (c : LRUCache K V) : List (K × V) → LRUCache K V × List (K × V)
  | [] => (c, [])
  | p :: ps =>
      ((putAll (c.Put p.1 p.2).1 ps).1,
       (c.Put p.1 p.2).2 ++ (putAll (c.Put p.1 p.2).1 ps).2)

lemma putAll_append (c : LRUCache K V) (l₁ l₂ : List (K × V)) :
    putAll c (l₁ ++ l₂) =
      ((putAll (putAll c l₁).1 l₂).1,
       (putAll c l₁).2 ++ (putAll (putAll c l₁).1 l₂).2) := by
  induction l₁ generalizing c with
  | nil => simp [putAll]
  | cons p t ih => simp [putAll, ih, List.append_assoc]

/-- Putting pairwise-distinct keys that are all absent into a cache with
enough spare capacity prepends them to both structures and evicts nothing. -/
lemma putAll_fresh (ps : List (K × V)) : ∀ (c : LRUCache K V),
    (∀ p ∈ ps, p.1 ∉ c.cache_items_map) →
    (ps.map Prod.fst).Nodup →
    c.cache_items_map.length + ps.length ≤ c.max_size →
    putAll c ps =
      ({ c with
          cache_items_list := ps.reverse ++ c.cache_items_list,
          cache_items_map := (ps.map Prod.fst).reverse ++ c.cache_items_map },
       []) := by
  induction ps with
  | nil =>
      intro c _ _ _
      simp [putAll]
  | cons p ps ih =>
      intro c hfresh hnd hsz
      have hp : p.1 ∉ c.cache_items_map := hfresh p (List.mem_cons_self p ps)
      have hx : c.Exists p.1 = false := by
        unfold LRUCache.Exists
        exact decide_eq_false hp
      have hsmall : c.Size < c.max_size := by
        unfold LRUCache.Size
        simp only [List.length_cons] at hsz
        omega
      have hkey : p.1 ∉ ps.map Prod.fst := by
        simp only [List.map_cons, List.nodup_cons] at hnd
        exact hnd.1
      rw [putAll, put_miss_small c p.1 p.2 hx hsmall]
      rw [ih { c with cache_items_list := (p.1, p.2) :: c.cache_items_list,
                      cache_items_map := p.1 :: c.cache_items_map }
            (fun q hq => by
              intro hmem
              rcases List.mem_cons.mp hmem with h1 | h1
              · exact hkey (h1 ▸ List.mem_map_of_mem Prod.fst hq)
              · exact hfresh q (List.mem_cons_of_mem p hq) h1)
            (by
              simp only [List.map_cons, List.nodup_cons] at hnd
              exact hnd.2)
            (by
              simp only [List.length_cons] at hsz ⊢
              omega)]
      simp [List.append_assoc]

/-- C2: for every capacity C ≥ 1 and every sequence of C+1 `Put`s of
pairwise-distinct keys into a fresh cache with no intervening `Get`s, the
last `Put` evicts exactly the first key: over the whole sequence the
eviction callback is handed exactly the one pair (k1, v1), after which k1 is
no longer in the cache while every other inserted key still is.  The spec's
capacity-1 instance — `Put(A, v1)` then `Put(B, v2)` invoking the callback
exactly once with (A, v1) — is the case C = 1 (see the witness). -/
theorem c2_overflow_evicts_oldest (C : Nat) (hC : 1 ≤ C) (p : K × V)
    (qs : List (K × V)) (hlen : qs.length = C)
    (hnd : ((p :: qs).map Prod.fst).Nodup) :
    (putAll (LRUCache.new K V C) (p :: qs)).2 = [p] ∧
    (putAll (LRUCache.new K V C) (p :: qs)).1.Exists p.1 = false ∧
    ∀ q ∈ qs, (putAll (LRUCache.new K V C) (p :: qs)).1.Exists q.1 = true := by
  have hne : qs ≠ [] := by
    intro h
    rw [h] at hlen
    simp at hlen
    omega
  set lst := qs.getLast hne with hlst
  have hqs : qs.dropLast ++ [lst] = qs := List.dropLast_append_getLast hne
  have hsplit : p :: qs = (p :: qs.dropLast) ++ [lst] := by
    conv_lhs => rw [← hqs]
    rw [List.cons_append]
  have hdl : qs.dropLast.length = C - 1 := by
    rw [List.length_dropLast, hlen]
  -- key-set bookkeeping
  have hkeys : (p :: qs).map Prod.fst =
      ((p :: qs.dropLast).map Prod.fst) ++ [lst.1] := by
    rw [hsplit]
    simp
  have hndsplit : (((p :: qs.dropLast).map Prod.fst) ++ [lst.1]).Nodup := by
    rw [← hkeys]
    exact hnd
  have hnd1 : ((p :: qs.dropLast).map Prod.fst).Nodup :=
    (List.nodup_append.mp hndsplit).1
  have hlstnotmem : lst.1 ∉ (p :: qs.dropLast).map Prod.fst := by
    intro hin
    exact (List.nodup_append.mp hndsplit).2.2 hin (List.mem_singleton_self lst.1)
  -- fill the cache with the first C pairs; no eviction happens
  have hfill := putAll_fresh (p :: qs.dropLast) (LRUCache.new K V C)
    (fun q _ => List.not_mem_nil q.1) hnd1
    (by
      unfold LRUCache.new
      simp only [List.length_cons, List.length_nil, hdl]
      omega)
  rw [hsplit, putAll_append, hfill]
  simp only [LRUCache.new, List.append_nil, List.nil_append]
  -- the final Put of lst on the now-full cache
  set cfull : LRUCache K V :=
    { cache_items_list := (p :: qs.dropLast).reverse,
      cache_items_map := ((p :: qs.dropLast).map Prod.fst).reverse,
      max_size := C } with hcfull
  have hxmiss : cfull.Exists lst.1 = false := by
    unfold LRUCache.Exists
    rw [hcfull]
    simp only [List.mem_reverse]
    exact decide_eq_false hlstnotmem
  have hfullsz : cfull.max_size ≤ cfull.Size := by
    unfold LRUCache.Size
    rw [hcfull]
    simp only [List.length_reverse, List.length_map, List.length_cons, hdl]
    omega
  simp only [putAll]
  rw [put_miss_full cfull lst.1 lst.2 hxmiss hfullsz]
  have hlastp : ((lst.1, lst.2) :: cfull.cache_items_list).getLast? = some p := by
    rw [hcfull]
    simp only [List.reverse_cons]
    rw [← List.cons_append, List.getLast?_concat]
  unfold LRUCache.Evict
  simp only
  rw [hlastp]
  simp only [List.append_nil]
  -- the final key set
  have hndrev : (lst.1 :: (((p :: qs.dropLast).map Prod.fst).reverse)).Nodup := by
    refine List.Nodup.cons ?_ (List.nodup_reverse.mpr hnd1)
    simp only [List.mem_reverse]
    exact hlstnotmem
  have hp1mem : p.1 ∈ lst.1 :: (((p :: qs.dropLast).map Prod.fst).reverse) := by
    apply List.mem_cons_of_mem
    simp only [List.mem_reverse, List.map_cons]
    exact List.mem_cons_self p.1 _
  refine ⟨trivial, ?_, ?_⟩
  · unfold LRUCache.Exists
    simp only
    apply decide_eq_false
    intro hin
    exact (hndrev.mem_erase_iff.mp hin).1 rfl
  · intro q hq
    unfold LRUCache.Exists
    simp only
    apply decide_eq_true
    have hq1 : q.1 ≠ p.1 := by
      intro heq
      simp only [List.map_cons, List.nodup_cons] at hnd
      apply hnd.1
      rw [← heq]
      exact List.mem_map_of_mem Prod.fst hq
    rw [hndrev.mem_erase_iff]
    refine ⟨hq1, ?_⟩
    have hq2 : q ∈ qs.dropLast ++ [lst] := by
      rw [hqs]
      exact hq
    rcases List.mem_append.mp hq2 with h1 | h1
    · apply List.mem_cons_of_mem
      simp only [List.mem_reverse, List.map_cons]
      exact List.mem_cons_of_mem p.1 (List.mem_map_of_mem Prod.fst h1)
    · rw [List.mem_singleton.mp h1]
      exact List.mem_cons_self lst.1 _

theorem c2_witness :
    (putAll (LRUCache.new ℕ ℕ 1) [(0, 10), (1, 20)]).2 = [(0, 10)] ∧
    (putAll (LRUCache.new ℕ ℕ 1) [(0, 10), (1, 20)]).1.Exists 0 = false ∧
    (putAll (LRUCache.new ℕ ℕ 1) [(0, 10), (1, 20)]).1.Exists 1 = true :=
  ⟨(c2_overflow_evicts_oldest 1 (by decide) (0, 10) [(1, 20)] (by decide)
      (by decide)).1,
   (c2_overflow_evicts_oldest 1 (by decide) (0, 10) [(1, 20)] (by decide)
      (by decide)).2.1,
   (c2_overflow_evicts_oldest 1 (by decide) (0, 10) [(1, 20)] (by decide)
      (by decide)).2.2 (1, 20) (by decide)⟩

/-- C5: capacity 2, distinct keys A, B, Cc; after `Put(A, a)`, `Put(B, b)`,
a successful `Get(A)` and then `Put(Cc, cv)`, the eviction hits B and not A:
the callback is handed exactly [(B, b)], A is still present and B is gone —
because the `Get` spliced A's node to the front of the Recency Sequence. -/
theorem c5_get_refreshes_recency (A B Cc : K) (a b cv : V)
    (hAB : A ≠ B) (hAC : A ≠ Cc) (hBC : B ≠ Cc) :
    (((((LRUCache.new K V 2).Put A a).1.Put B b).1.Get A).2.Put Cc cv).2
        = [(B, b)] ∧
    (((((LRUCache.new K V 2).Put A a).1.Put B b).1.Get A).2.Put Cc cv).1.Exists A
        = true ∧
    (((((LRUCache.new K V 2).Put A a).1.Put B b).1.Get A).2.Put Cc cv).1.Exists B
        = false := by
  have h1 : (LRUCache.new K V 2).Put A a =
      ((⟨[(A, a)], [A], 2⟩ : LRUCache K V), []) := by
    rw [put_miss_small _ _ _ (by rfl) (by norm_num [LRUCache.Size, LRUCache.new])]
    rfl
  have h2 : ((⟨[(A, a)], [A], 2⟩ : LRUCache K V)).Put B b =
      ((⟨[(B, b), (A, a)], [B, A], 2⟩ : LRUCache K V), []) := by
    rw [put_miss_small _ _ _
      ((exists_eq_false_iff _ _).mpr (by simp [Ne.symm hAB]))
      (by norm_num [LRUCache.Size])]
  have h3 : ((⟨[(B, b), (A, a)], [B, A], 2⟩ : LRUCache K V).Get A).2 =
      (⟨[(A, a), (B, b)], [B, A], 2⟩ : LRUCache K V) := by
    unfold LRUCache.Get
    rw [if_pos ⟨by norm_num [LRUCache.Size],
        (exists_iff_mem _ _).mpr (by simp)⟩,
      List.find?_cons_of_neg _ (by simp [hAB.symm]),
      List.find?_cons_of_pos _ (by simp),
      List.eraseP_cons_of_neg (by simp [hAB.symm]),
      List.eraseP_cons_of_pos (by simp)]
  have hEv : LRUCache.Evict
      (⟨[(Cc, cv), (A, a), (B, b)], [Cc, B, A], 2⟩ : LRUCache K V) =
      ((⟨[(Cc, cv), (A, a)], [Cc, A], 2⟩ : LRUCache K V), [(B, b)]) := by
    unfold LRUCache.Evict
    simp only [List.getLast?_cons_cons, List.getLast?_singleton]
    rw [List.erase_cons_tail (by simp [Ne.symm hBC]), List.erase_cons_head]
    rfl
  have h4 : ((⟨[(A, a), (B, b)], [B, A], 2⟩ : LRUCache K V)).Put Cc cv =
      ((⟨[(Cc, cv), (A, a)], [Cc, A], 2⟩ : LRUCache K V), [(B, b)]) := by
    rw [put_miss_full _ _ _
      ((exists_eq_false_iff _ _).mpr (by simp [Ne.symm hBC, Ne.symm hAC]))
      (by norm_num [LRUCache.Size])]
    exact hEv
  simp only [h1, h2, h3, h4]
  exact ⟨trivial, (exists_iff_mem _ _).mpr (by simp),
    (exists_eq_false_iff _ _).mpr (by simp [hBC, Ne.symm hAB])⟩

theorem c5_witness :
    (((((LRUCache.new ℕ ℕ 2).Put 0 5).1.Put 1 6).1.Get 0).2.Put 2 7).2
        = [(1, 6)] ∧
    (((((LRUCache.new ℕ ℕ 2).Put 0 5).1.Put 1 6).1.Get 0).2.Put 2 7).1.Exists 0
        = true ∧
    (((((LRUCache.new ℕ ℕ 2).Put 0 5).1.Put 1 6).1.Get 0).2.Put 2 7).1.Exists 1
        = false :=
  c5_get_refreshes_recency 0 1 2 5 6 7 (by decide) (by decide) (by decide)

/-
The demonstration wrapper `network::TCB` (src/solution.cc, lines 95-152)
keys the cache by the string `"<host>:<port>"`.  Strings are modelled as
`List Char`; `pair<string, int>` becomes `List Char × Int`.  The port is a
C++ `int`, so the faithful range of `std::stoi` is [-2^31, 2^31 - 1].
-/

/-- Character of decimal digit `d` (`d < 10`), code 48 + d. -/
def digitChar (d : Nat) : Char := Char.ofNat (48 + d)

/-- Decimal-digit test, the characters `'0'` to `'9'` accepted by
`std::stoi`. -/
def isDigitChar (c : Char) : Bool := decide (48 ≤ c.toNat ∧ c.toNat ≤ 57)

/-- Whitespace skipped by `std::stoi` (the six default-locale `isspace`
characters). -/
def isSpaceChar (c : Char) : Bool :=
  decide (c = ' ' ∨ c = '\t' ∨ c = '\n' ∨ c = '\x0B' ∨ c = '\x0C' ∨ c = '\r')

/-- Digit characters of `n`, most significant first, structured on a fuel
bound (any `fuel ≥ n`) so that it evaluates by kernel reduction. -/
def natCharsAux : Nat → Nat → List Char
  | _, 0 => []
  | 0, _ + 1 => []
  | fuel + 1, n + 1 =>
      natCharsAux fuel ((n + 1) / 10) ++ [digitChar ((n + 1) % 10)]

/-- Decimal text of a natural number, as `std::stringstream` prints it:
`"0"` for zero, otherwise the digits most significant first. -/
def natChars (n : Nat) : List Char :=
  if n = 0 then ['0'] else natCharsAux n n

/-- Decimal text of an `int`, as `ss << key.second` prints it
(src/solution.cc line 103). -/
def intChars (i : Int) : List Char :=
  if i < 0 then '-' :: natChars (-i).toNat else natChars i.toNat

/-- Numeric value of a digit string, most significant digit first. -/
def digitsVal (l : List Char) : Nat :=
  l.foldl (fun a c => a * 10 + (c.toNat - 48)) 0

lemma digitChar_toNat (d : Nat) (h : d < 10) : (digitChar d).toNat = 48 + d := by
  interval_cases d <;> decide

lemma digitChar_is_digit (d : Nat) (h : d < 10) :
    isDigitChar (digitChar d) = true := by
  interval_cases d <;> decide

lemma natCharsAux_digits : ∀ (fuel n : Nat), ∀ c ∈ natCharsAux fuel n,
    isDigitChar c = true := by
  intro fuel
  induction fuel with
  | zero =>
      intro n c hc
      cases n with
      | zero => simp [natCharsAux] at hc
      | succ m => simp [natCharsAux] at hc
  | succ f ih =>
      intro n c hc
      cases n with
      | zero => simp [natCharsAux] at hc
      | succ m =>
          simp only [natCharsAux] at hc
          rcases List.mem_append.mp hc with h1 | h1
          · exact ih _ c h1
          · rw [List.mem_singleton.mp h1]
            exact digitChar_is_digit _ (Nat.mod_lt _ (by norm_num))

lemma foldl_digitsVal (l : List Char) : ∀ a : Nat,
    l.foldl (fun x c => x * 10 + (c.toNat - 48)) a =
      a * 10 ^ l.length + digitsVal l := by
  induction l with
  | nil =>
      intro a
      simp [digitsVal]
  | cons c t ih =>
      intro a
      rw [List.foldl_cons, ih (a * 10 + (c.toNat - 48))]
      unfold digitsVal
      rw [List.foldl_cons, ih (0 * 10 + (c.toNat - 48))]
      simp only [List.length_cons]
      rw [pow_succ]
      unfold digitsVal
      ring

lemma digitsVal_natCharsAux : ∀ (fuel n : Nat), n ≤ fuel →
    digitsVal (natCharsAux fuel n) = n := by
  intro fuel
  induction fuel with
  | zero =>
      intro n hn
      interval_cases n
      rfl
  | succ f ih =>
      intro n hn
      cases n with
      | zero => rfl
      | succ m =>
          simp only [natCharsAux]
          unfold digitsVal
          rw [List.foldl_append]
          simp only [List.foldl_cons, List.foldl_nil]
          have hdiv : (m + 1) / 10 ≤ f := by omega
          have ihv := ih _ hdiv
          unfold digitsVal at ihv
          rw [ihv, digitChar_toNat _ (Nat.mod_lt _ (by norm_num))]
          omega

lemma natCharsAux_ne_nil (fuel n : Nat) (h1 : 1 ≤ n) (h2 : n ≤ fuel) :
    natCharsAux fuel n ≠ [] := by
  cases fuel with
  | zero => omega
  | succ f =>
      cases n with
      | zero => omega
      | succ m => simp [natCharsAux]

lemma natChars_ne_nil (n : Nat) : natChars n ≠ [] := by
  unfold natChars
  by_cases h : n = 0
  · rw [if_pos h]
    simp
  · rw [if_neg h]
    exact natCharsAux_ne_nil n n (by omega) (Nat.le_refl n)

lemma digitsVal_natChars (n : Nat) : digitsVal (natChars n) = n := by
  unfold natChars
  by_cases h : n = 0
  · rw [if_pos h, h]
    rfl
  · rw [if_neg h]
    exact digitsVal_natCharsAux n n (Nat.le_refl n)

lemma natChars_digits (n : Nat) : ∀ c ∈ natChars n, isDigitChar c = true := by
  intro c hc
  unfold natChars at hc
  by_cases h : n = 0
  · rw [if_pos h] at hc
    rw [List.mem_singleton.mp hc]
    decide
  · rw [if_neg h] at hc
    exact natCharsAux_digits n n c hc

lemma digit_not_space (c : Char) (h : isDigitChar c = true) :
    isSpaceChar c = false := by
  unfold isDigitChar at h
  rw [decide_eq_true_iff] at h
  unfold isSpaceChar
  apply decide_eq_false
  intro hsp
  rcases hsp with h1 | h1 | h1 | h1 | h1 | h1 <;> (subst h1; revert h; decide)

lemma digit_ne_minus (c : Char) (h : isDigitChar c = true) : ¬ (c = '-') := by
  intro h1
  subst h1
  revert h
  decide

lemma digit_ne_plus (c : Char) (h : isDigitChar c = true) : ¬ (c = '+') := by
  intro h1
  subst h1
  revert h
  decide

lemma digit_ne_colon (c : Char) (h : isDigitChar c = true) : ¬ (c = ':') := by
  intro h1
  subst h1
  revert h
  decide

lemma intChars_ne_nil (i : Int) : intChars i ≠ [] := by
  unfold intChars
  by_cases h : i < 0
  · rw [if_pos h]
    simp
  · rw [if_neg h]
    exact natChars_ne_nil _

lemma intChars_no_colon (i : Int) : ':' ∉ intChars i := by
  unfold intChars
  by_cases h : i < 0
  · rw [if_pos h]
    intro hc
    rcases List.mem_cons.mp hc with h1 | h1
    · revert h1
      decide
    · exact digit_ne_colon ':' (natChars_digits _ ':' h1) rfl
  · rw [if_neg h]
    intro hc
    exact digit_ne_colon ':' (natChars_digits _ ':' hc) rfl

/-- Body of `TCB::Tokenize`, structured on a fuel bound (any
`fuel ≥ str.length`) so that it evaluates by kernel reduction; every step
consumes at least one character, so the fuel never runs out below. -/
def tokenizeAux : Nat → List Char → Char → List (List Char)
  | 0, _, _ => []
  | _ + 1, [], _ => []
  | fuel + 1, c :: cs, d =>
      if c = d then tokenizeAux fuel cs d
      else (c :: cs.takeWhile (fun x => decide (x ≠ d))) ::
        tokenizeAux fuel (cs.dropWhile (fun x => decide (x ≠ d))) d

/-- Static member `TCB::Tokenize(string str, char delimeter)` (src/solution.cc
lines 107-123): splits `str` into its maximal runs of non-delimiter
characters, skipping every delimiter run, leading and trailing included. -/
def TCB.Tokenize (str : List Char) (delimeter : Char) : List (List Char) :=
  tokenizeAux str.length str delimeter

/-- Static member `TCB::Combined` (lines 101-105): the combined key is the
host, a colon, and the decimal text of the port. -/
def TCB.Combined (key : (List Char) × Int) : List Char :=
  key.1 ++ ':' :: intChars key.2

/-- Failures of `std::stoi`. -/
inductive StoiError where
  | invalid_argument
  | out_of_range
deriving DecidableEq

/-- Smallest C++ `int` value. -/
def intMin : Int := -2147483648

/-- Largest C++ `int` value. -/
def intMax : Int := 2147483647

/-- Digit-run phase of `std::stoi`, after whitespace and sign handling: the
maximal leading digit run is converted; no digit at all is
`invalid_argument`; a value outside `int` is `out_of_range`. -/
def stoiCore (sign : Int) (s : List Char) : Except StoiError Int :=
  if (s.takeWhile isDigitChar).isEmpty then
    Except.error StoiError.invalid_argument
  else if sign * (digitsVal (s.takeWhile isDigitChar) : Int) < intMin ∨
      intMax < sign * (digitsVal (s.takeWhile isDigitChar) : Int) then
    Except.error StoiError.out_of_range
  else Except.ok (sign * (digitsVal (s.takeWhile isDigitChar) : Int))

/-- Model of `std::stoi` as called at src/solution.cc line 129: skip leading
whitespace, consume one optional `'+'` or `'-'`, then convert the maximal
decimal-digit run. -/
def stoi (s : List Char) : Except StoiError Int :=
  match s.dropWhile isSpaceChar with
  | [] => Except.error StoiError.invalid_argument
  | c :: rest =>
      if c = '-' then stoiCore (-1) rest
      else if c = '+' then stoiCore 1 rest
      else stoiCore 1 (c :: rest)

/-- Failure modes of `TCB::Retrive` as the C++ actually behaves: an
out-of-bounds `vector::operator[]` access (undefined behavior — the program
has no bounds check), or an exception from `std::stoi`.  The specification's
`MalformedKey` does not exist anywhere in the source. -/
inductive RetriveError where
  | outOfBounds
  | invalid_argument
  | out_of_range
deriving DecidableEq

/-- Static member `TCB::Retrive` (lines 125-131): tokenizes on `':'`, reads
`strs[0]` as the host and `stoi(strs[1])` as the port.  `strs[0]`/`strs[1]`
are unchecked accesses, modelled as `outOfBounds` when the vector is too
short; `stoi` failures propagate. -/
def TCB.Retrive (key : List Char) : Except RetriveError ((List Char) × Int) :=
  match (TCB.Tokenize key ':')[0]? with
  | none => Except.error RetriveError.outOfBounds
  | some host =>
      match (TCB.Tokenize key ':')[1]? with
      | none => Except.error RetriveError.outOfBounds
      | some pstr =>
          match stoi pstr with
          | Except.error StoiError.invalid_argument =>
              Except.error RetriveError.invalid_argument
          | Except.error StoiError.out_of_range =>
              Except.error RetriveError.out_of_range
          | Except.ok n => Except.ok (host, n)

lemma takeWhile_all (p : Char → Bool) : ∀ l : List Char,
    (∀ c ∈ l, p c = true) → l.takeWhile p = l := by
  intro l
  induction l with
  | nil => intro _; rfl
  | cons a t ih =>
      intro h
      rw [List.takeWhile_cons_of_pos (h a (List.mem_cons_self a t)),
        ih (fun c hc => h c (List.mem_cons_of_mem a hc))]

lemma dropWhile_all (p : Char → Bool) : ∀ l : List Char,
    (∀ c ∈ l, p c = true) → l.dropWhile p = [] := by
  intro l
  induction l with
  | nil => intro _; rfl
  | cons a t ih =>
      intro h
      rw [List.dropWhile_cons_of_pos (h a (List.mem_cons_self a t)),
        ih (fun c hc => h c (List.mem_cons_of_mem a hc))]

lemma takeWhile_append_delim (d : Char) (xs ys : List Char) (hxs : d ∉ xs) :
    (xs ++ d :: ys).takeWhile (fun x => decide (x ≠ d)) = xs := by
  induction xs with
  | nil =>
      simp only [List.nil_append]
      rw [List.takeWhile_cons_of_neg (by simp)]
  | cons a t ih =>
      rw [List.cons_append,
        List.takeWhile_cons_of_pos (by
          apply decide_eq_true
          intro he
          exact hxs (by rw [← he]; exact List.mem_cons_self a t)),
        ih (fun hm => hxs (List.mem_cons_of_mem a hm))]

lemma dropWhile_append_delim (d : Char) (xs ys : List Char) (hxs : d ∉ xs) :
    (xs ++ d :: ys).dropWhile (fun x => decide (x ≠ d)) = d :: ys := by
  induction xs with
  | nil =>
      simp only [List.nil_append]
      rw [List.dropWhile_cons_of_neg (by simp)]
  | cons a t ih =>
      rw [List.cons_append,
        List.dropWhile_cons_of_pos (by
          apply decide_eq_true
          intro he
          exact hxs (by rw [← he]; exact List.mem_cons_self a t)),
        ih (fun hm => hxs (List.mem_cons_of_mem a hm))]

lemma tokenizeAux_nil (d : Char) (fuel : Nat) : tokenizeAux fuel [] d = [] := by
  cases fuel <;> rfl

lemma tokenizeAux_no_delim (d : Char) (fuel : Nat) (xs : List Char)
    (hne : xs ≠ []) (hd : d ∉ xs) (hf : 1 ≤ fuel) :
    tokenizeAux fuel xs d = [xs] := by
  cases fuel with
  | zero => omega
  | succ f =>
      cases xs with
      | nil => exact absurd rfl hne
      | cons a t =>
          have had : ¬ (a = d) := fun he =>
            hd (by rw [← he]; exact List.mem_cons_self a t)
          have htd : ∀ c ∈ t, (fun x => decide (x ≠ d)) c = true := by
            intro c hc
            apply decide_eq_true
            intro he
            exact hd (by rw [← he]; exact List.mem_cons_of_mem a hc)
          simp only [tokenizeAux]
          rw [if_neg had, takeWhile_all _ t htd, dropWhile_all _ t htd,
            tokenizeAux_nil]

lemma tokenizeAux_split (d : Char) (fuel : Nat) (xs ys : List Char)
    (hnx : xs ≠ []) (hdx : d ∉ xs) (hny : ys ≠ []) (hdy : d ∉ ys)
    (hf : 3 ≤ fuel) :
    tokenizeAux fuel (xs ++ d :: ys) d = [xs, ys] := by
  cases fuel with
  | zero => omega
  | succ f =>
      cases xs with
      | nil => exact absurd rfl hnx
      | cons a t =>
          have had : ¬ (a = d) := fun he =>
            hdx (by rw [← he]; exact List.mem_cons_self a t)
          have htd : d ∉ t := fun hm => hdx (List.mem_cons_of_mem a hm)
          rw [List.cons_append]
          simp only [tokenizeAux]
          rw [if_neg had, takeWhile_append_delim d t ys htd,
            dropWhile_append_delim d t ys htd]
          cases f with
          | zero => omega
          | succ f2 =>
              simp only [tokenizeAux, if_true]
              rw [tokenizeAux_no_delim d f2 ys hny hdy (by omega)]

lemma tokenize_no_delim (d : Char) (xs : List Char) (hne : xs ≠ [])
    (hd : d ∉ xs) : TCB.Tokenize xs d = [xs] := by
  unfold TCB.Tokenize
  exact tokenizeAux_no_delim d _ xs hne hd (List.length_pos.mpr hne)

lemma tokenize_split (d : Char) (xs ys : List Char) (hnx : xs ≠ [])
    (hdx : d ∉ xs) (hny : ys ≠ []) (hdy : d ∉ ys) :
    TCB.Tokenize (xs ++ d :: ys) d = [xs, ys] := by
  unfold TCB.Tokenize
  apply tokenizeAux_split d _ xs ys hnx hdx hny hdy
  have h1 : 0 < xs.length := List.length_pos.mpr hnx
  have h2 : 0 < ys.length := List.length_pos.mpr hny
  rw [List.length_append, List.length_cons]
  omega

lemma stoi_eq_of_dropWhile_cons (s : List Char) (c : Char) (rest : List Char)
    (h : s.dropWhile isSpaceChar = c :: rest) :
    stoi s = if c = '-' then stoiCore (-1) rest
      else if c = '+' then stoiCore 1 rest
      else stoiCore 1 (c :: rest) := by
  unfold stoi
  rw [h]

lemma stoiCore_digits (sign : Int) (l : List Char) (hne : l ≠ [])
    (hdig : ∀ c ∈ l, isDigitChar c = true)
    (hrange : ¬ (sign * (digitsVal l : Int) < intMin ∨
      intMax < sign * (digitsVal l : Int))) :
    stoiCore sign l = Except.ok (sign * (digitsVal l : Int)) := by
  unfold stoiCore
  rw [takeWhile_all _ l hdig,
    if_neg (fun hemp => hne (List.isEmpty_iff.mp hemp)), if_neg hrange]

lemma stoi_intChars (i : Int) (hlo : intMin ≤ i) (hhi : i ≤ intMax) :
    stoi (intChars i) = Except.ok i := by
  by_cases hI : i < 0
  · have hichars : intChars i = '-' :: natChars (-i).toNat := by
      unfold intChars
      rw [if_pos hI]
    have hdw : (intChars i).dropWhile isSpaceChar =
        '-' :: natChars (-i).toNat := by
      rw [hichars]
      exact List.dropWhile_cons_of_neg (by decide)
    rw [stoi_eq_of_dropWhile_cons _ _ _ hdw, if_pos rfl]
    have hval : ((digitsVal (natChars (-i).toNat) : Nat) : Int) = -i := by
      rw [digitsVal_natChars]
      exact Int.toNat_of_nonneg (by omega)
    have hres : (-1 : Int) * (digitsVal (natChars (-i).toNat) : Int) = i := by
      rw [hval]
      ring
    rw [stoiCore_digits (-1) _ (natChars_ne_nil _) (natChars_digits _)
      (by rw [hres]; simp only [intMin, intMax] at hlo hhi ⊢; omega), hres]
  · have hichars : intChars i = natChars i.toNat := by
      unfold intChars
      rw [if_neg hI]
    obtain ⟨c, rest, hcr⟩ : ∃ c rest, natChars i.toNat = c :: rest := by
      cases hx : natChars i.toNat with
      | nil => exact absurd hx (natChars_ne_nil _)
      | cons c rest => exact ⟨c, rest, rfl⟩
    have hcdig : isDigitChar c = true := by
      apply natChars_digits i.toNat
      rw [hcr]
      exact List.mem_cons_self c rest
    have hdw : (intChars i).dropWhile isSpaceChar = c :: rest := by
      rw [hichars, hcr]
      exact List.dropWhile_cons_of_neg (by simp [digit_not_space c hcdig])
    rw [stoi_eq_of_dropWhile_cons _ _ _ hdw,
      if_neg (digit_ne_minus c hcdig), if_neg (digit_ne_plus c hcdig), ← hcr]
    have hval : ((digitsVal (natChars i.toNat) : Nat) : Int) = i := by
      rw [digitsVal_natChars]
      exact Int.toNat_of_nonneg (by omega)
    have hres : (1 : Int) * (digitsVal (natChars i.toNat) : Int) = i := by
      rw [hval]
      ring
    rw [stoiCore_digits 1 _ (natChars_ne_nil _) (natChars_digits _)
      (by rw [hres]; simp only [intMin, intMax] at hlo hhi ⊢; omega), hres]

/-- C8 counterexample: the empty host contains no `':'`, yet the round trip
fails: `Combined(("", 80))` is `":80"`, `Tokenize` skips the leading
delimiter run and returns the single token `"80"`, and `Retrive` then reads
`strs[1]` past the end of a one-element vector — undefined behavior in the
C++ (modelled `outOfBounds`), not the original pair. -/
theorem c8_counterexample :
    TCB.Retrive (TCB.Combined (([] : List Char), (80 : Int))) =
      Except.error RetriveError.outOfBounds ∧
    TCB.Retrive (TCB.Combined (([] : List Char), (80 : Int))) ≠
      Except.ok (([] : List Char), (80 : Int)) :=
  ⟨rfl, fun h => Except.noConfusion h⟩

/-- C8 amended: for every (host, port) with host NONEMPTY and containing no
`':'` (and port a C++ `int`, hence within [intMin, intMax]), parsing the
combined string form yields back exactly (host, port); with an empty host
the parse instead runs off the end of the token vector. -/
theorem c8_roundtrip_nonempty_host (host : List Char) (port : Int)
    (hne : host ≠ []) (hcolon : ':' ∉ host)
    (hlo : intMin ≤ port) (hhi : port ≤ intMax) :
    TCB.Retrive (TCB.Combined (host, port)) = Except.ok (host, port) := by
  unfold TCB.Retrive
  have hcomb : TCB.Combined (host, port) = host ++ ':' :: intChars port := rfl
  rw [hcomb, tokenize_split ':' host (intChars port) hne hcolon
    (intChars_ne_nil port) (intChars_no_colon port)]
  simp only [List.getElem?_cons_zero, List.getElem?_cons_succ]
  rw [stoi_intChars port hlo hhi]

theorem c8_witness :
    (('h' :: []) : List Char) ≠ [] ∧ ':' ∉ (('h' :: []) : List Char) ∧
    intMin ≤ (80 : Int) ∧ (80 : Int) ≤ intMax ∧
    TCB.Retrive (TCB.Combined (('h' :: []), (80 : Int))) =
      Except.ok ((('h' :: []) : List Char), (80 : Int)) :=
  ⟨by decide, by decide, by decide, by decide,
    c8_roundtrip_nonempty_host ('h' :: []) 80 (by decide) (by decide)
      (by decide) (by decide)⟩

/-- C9 counterexample: the code does not fail with a distinct `MalformedKey`
error on malformed keys — no such error exists in the source.  On a key
missing the `':'` delimiter (`"noport"`), `Retrive` reads `strs[1]` out of
bounds, which in C++ is undefined behavior, i.e. the very crash the claim
rules out; on a non-numeric port (`"h:abc"`), `std::stoi` throws
`std::invalid_argument`, which propagates uncaught. -/
theorem c9_counterexample :
    TCB.Retrive ('n' :: 'o' :: 'p' :: 'o' :: 'r' :: 't' :: []) =
      Except.error RetriveError.outOfBounds ∧
    TCB.Retrive ('h' :: ':' :: 'a' :: 'b' :: 'c' :: []) =
      Except.error RetriveError.invalid_argument :=
  ⟨rfl, rfl⟩

/-- C9 amended: malformed combined keys do fail, but not with a dedicated
`MalformedKey` error.  Every string without a `':'` (the empty string
included) drives `Retrive` into an unchecked `strs[1]` access — undefined
behavior / a crash in the C++ — and a non-numeric port token makes
`std::stoi` throw `std::invalid_argument`, which `Retrive` does not catch. -/
theorem c9_malformed_key_behavior :
    (∀ s : List Char, ':' ∉ s →
      TCB.Retrive s = Except.error RetriveError.outOfBounds) ∧
    TCB.Retrive ('h' :: ':' :: 'a' :: 'b' :: 'c' :: []) =
      Except.error RetriveError.invalid_argument := by
  refine ⟨?_, rfl⟩
  intro s hs
  unfold TCB.Retrive
  by_cases hne : s = []
  · subst hne
    rfl
  · rw [tokenize_no_delim ':' s hne hs]
    rfl

theorem c9_witness :
    ':' ∉ (('x' :: []) : List Char) ∧
    TCB.Retrive ('x' :: []) = Except.error RetriveError.outOfBounds :=
  ⟨by decide, c9_malformed_key_behavior.1 ('x' :: []) (by decide)⟩

end LRUSpec
